import Mathlib

/-!
Shallow embedding of the candidate-generation core of `twister.py`
(the edit-operation permutation engine), together with proofs of the
specification's claims about it.

Strings are Lean `String`s; Python character lists are `List Char`;
the `dict` case tables are association lists `List (Char × List Char)`
queried with `List.lookup`; `itertools.combinations` and
`itertools.product` are reimplemented below with the same enumeration
order.
-/

namespace Twister

/-- `itertools.combinations`: all size-`n` subsequences of `l`,
in the same order Python enumerates them (lexicographic by position). -/
def combinations {α : Type} : Nat → List α → List (List α)
  | 0, _ => [[]]
  | _ + 1, [] => []
  | n + 1, x :: xs => (combinations n xs).map (fun c => x :: c) ++ combinations (n + 1) xs

/-- `itertools.product`: Cartesian product of a list of lists, rightmost
factor varying fastest, as Python enumerates it. -/
def product {α : Type} : List (List α) → List (List α)
  | [] => [[]]
  | l :: ls => l.flatMap (fun x => (product ls).map (fun t => x :: t))

/-- `SubOp.edits` / `InsOp.edits` scan: positions whose character is a key of
the case table, paired with the table's value there
(`[(i, self.cases[c]) for i, c in enumerate(string) if c in self.cases]`). -/
def subEdits (cases : List (Char × List Char)) (s : String) : List (Nat × List Char) :=
  s.toList.enum.filterMap (fun ic => (List.lookup ic.2 cases).map (fun r => (ic.1, r)))

/-- `InsOp.edits` has the same body as `SubOp.edits` in the source. -/
def insEdits (cases : List (Char × List Char)) (s : String) : List (Nat × List Char) :=
  s.toList.enum.filterMap (fun ic => (List.lookup ic.2 cases).map (fun r => (ic.1, r)))

/-- The in-place assignment loop of `SubOp.generate`:
`for i, char in enumerate(ed): chars[edit[i][0]] = char`. -/
def setAll (chars : List Char) : List (Nat × Char) → List Char
  | [] => chars
  | pc :: rest => setAll (chars.set pc.1 pc.2) rest

/-- `SubOp.generate`: for each tuple of the Cartesian product of the sites'
replacement sets, write each chosen character at its site's position. -/
def subGenerate (s : String) (edit : List (Nat × List Char)) : List String :=
  (product (edit.map Prod.snd)).map
    (fun ed => String.mk (setAll s.toList (List.zip (edit.map Prod.fst) ed)))

/-- One swap of `TraOp.generate`:
`char = chars[i]; chars[i] = chars[i+1]; chars[i+1] = char`. -/
def swapAt (chars : List Char) (i : Nat) : List Char :=
  (chars.set i (chars.getD (i + 1) ' ')).set (i + 1) (chars.getD i ' ')

/-- `TraOp.generate`: the swaps of the combination applied sequentially to one
shared character buffer, in combination order. -/
def traGenerate (s : String) (edit : List Nat) : List String :=
  [String.mk (edit.foldl swapAt s.toList)]

/-- `TraOp.edits`: positions `i` with `[string[i], string[i+1]]` in the pair
list. -/
def traEdits (cases : List (List Char)) (s : String) : List Nat :=
  (List.range (s.length - 1)).filter
    (fun i => decide ([s.toList.getD i ' ', s.toList.getD (i + 1) ' '] ∈ cases))

/-- The in-place append loop of `InsOp.generate`:
`for i, char in enumerate(ed): chars[edit[i][0]] += char`, on a buffer of
one-character strings. -/
def insSetAll (chars : List String) : List (Nat × Char) → List String
  | [] => chars
  | pc :: rest => insSetAll (chars.set pc.1 (chars.getD pc.1 "" ++ pc.2.toString)) rest

/-- `InsOp.generate`: for each tuple of the Cartesian product of the sites'
insertion sets, append each chosen character after its site's character; keep
only results of length ≤ 15. -/
def insGenerate (s : String) (edit : List (Nat × List Char)) : List String :=
  (product (edit.map Prod.snd)).filterMap
    (fun ed =>
      let str := String.join
        (insSetAll (s.toList.map (fun c => String.mk [c])) (List.zip (edit.map Prod.fst) ed))
      if str.length ≤ 15 then some str else none)

/-- `DelOp.edits`: positions whose character is in the delete set. -/
def delEdits (cases : List Char) (s : String) : List Nat :=
  s.toList.enum.filterMap (fun ic => if ic.2 ∈ cases then some ic.1 else none)

/-- `DelOp.generate`: drop the combination's positions; yield nothing if the
result is empty. -/
def delGenerate (s : String) (edit : List Nat) : List String :=
  let chars := s.toList.enum.filterMap (fun ic => if ic.1 ∈ edit then none else some ic.2)
  if chars = [] then [] else [String.mk chars]

/-- `EditOp.apply`: for each combination size `i+1` with `i < max`, every
combination of edit sites, generated into one output list. -/
def editApply {σ : Type} (edits : List σ) (gen : List σ → List String) (max : Nat) :
    List String :=
  (List.range max).flatMap (fun i => (combinations (i + 1) edits).flatMap gen)

/-- `PreOp.apply`: each affix prepended, results longer than 15 dropped. -/
def preApply (cases : List String) (s : String) : List String :=
  cases.filterMap (fun p =>
    let r := p ++ s
    if r.length ≤ 15 then some r else none)

/-- `SufOp.apply`: each affix appended, results longer than 15 dropped. -/
def sufApply (cases : List String) (s : String) : List String :=
  cases.filterMap (fun p =>
    let r := s ++ p
    if r.length ≤ 15 then some r else none)

/-- The operation variants `SubOp`, `TraOp`, `InsOp`, `DelOp`, `PreOp`,
`SufOp`, each carrying its case table and, for the positional kinds, `max`. -/
inductive Op : Type
  | sub (cases : List (Char × List Char)) (max : Nat)
  | tra (cases : List (List Char)) (max : Nat)
  | ins (cases : List (Char × List Char)) (max : Nat)
  | del (cases : List Char) (max : Nat)
  | pre (cases : List String)
  | suf (cases : List String)

/-- Dispatch of `apply` over the operation variants. -/
def Op.apply : Op → String → List String
  | Op.sub cases max, s => editApply (subEdits cases s) (subGenerate s) max
  | Op.tra cases max, s => editApply (traEdits cases s) (traGenerate s) max
  | Op.ins cases max, s => editApply (insEdits cases s) (insGenerate s) max
  | Op.del cases max, s => editApply (delEdits cases s) (delGenerate s) max
  | Op.pre cases, s => preApply cases s
  | Op.suf cases, s => sufApply cases s

/-- The inner staging loop of `generate_users`: each new string is appended to
`temp` unless it is already in `users` or in `temp`. -/
def addCandidates (users temp news : List String) : List String :=
  news.foldl (fun t u1 => if u1 ∈ users ++ t then t else t ++ [u1]) temp

/-- One pass of `generate_users` over the pool for a single operation:
apply the operation to every pool member, stage the new strings, then append
them to the pool. -/
def opPass (op : Op) (users : List String) : List String :=
  users ++ users.foldl (fun temp user => addCandidates users temp (op.apply user)) []

/-- The candidate pool after running a (prefix of a) profile: `users` in
`generate_users`, before the final removal of the target. -/
def pool (target : String) (profile : List Op) : List String :=
  profile.foldl (fun users op => opPass op users) [target]

/-- `generate_users`: run every operation over the cumulative pool, then
remove the target. -/
def generate_users (target : String) (profile : List Op) : List String :=
  (pool target profile).erase target

/-- `generate_all`: concatenation of `generate_users` over the targets. -/
def generate_all (targets : List String) (profile : List Op) : List String :=
  targets.foldl (fun users target => users ++ generate_users target profile) []

/-- A validated base string, as the surrounding tool guarantees it:
lowercase letters, digits or underscore, length 1..15. -/
def validBase (b : String) : Prop :=
  1 ≤ b.length ∧ b.length ≤ 15 ∧ ∀ c ∈ b.toList, c.isLower = true ∨ c.isDigit = true ∨ c = '_'

/-- Spec-side reading of one insertion tuple: each chosen character is
appended immediately after the existing character at its position, all other
positions unchanged (`asn` assigns a chosen character to each chosen
position). Stated independently of the code's mutable-buffer loop, for the
refinement proof. -/
def specInsert (s : List Char) (asn : List (Nat × Char)) : String :=
  String.join (s.enum.map (fun ic =>
    match List.lookup ic.1 asn with
    | some ch => String.mk [ic.2, ch]
    | none => String.mk [ic.2]))

/-- Spec-side reading of one substitution tuple: exactly the chosen positions
carry their chosen replacement characters, every other position is unchanged.
Stated independently of the code's mutable-buffer loop, for the refinement
proof. -/
def specSubst (s : List Char) (asn : List (Nat × Char)) : List Char :=
  s.enum.map (fun ic =>
    match List.lookup ic.1 asn with
    | some ch => ch
    | none => ic.2)

/-- The alternative transposition semantics the spec warns against:
independent, non-interacting swaps, each reading both its characters from the
original string rather than from the shared buffer. -/
def indepSwaps (s : List Char) (edit : List Nat) : List Char :=
  edit.foldl (fun chars i => (chars.set i (s.getD (i + 1) ' ')).set (i + 1) (s.getD i ' ')) s

/-! ### Basic lemmas -/

theorem lookup_eq_none_of_not_mem {α β : Type} [BEq α] [LawfulBEq α]
    (l : List (α × β)) (a : α) (h : a ∉ l.map Prod.fst) : List.lookup a l = none := by
  induction l with
  | nil => rfl
  | cons p rest ih =>
    simp only [List.map_cons, List.mem_cons, not_or] at h
    have hb : (a == p.1) = false := by simp [h.1]
    simp only [List.lookup, hb]
    exact ih h.2

theorem setAll_length (asn : List (Nat × Char)) (chars : List Char) :
    (setAll chars asn).length = chars.length := by
  induction asn generalizing chars with
  | nil => rfl
  | cons pc rest ih => simp [setAll, ih, List.length_set]

theorem insSetAll_length (asn : List (Nat × Char)) (chars : List String) :
    (insSetAll chars asn).length = chars.length := by
  induction asn generalizing chars with
  | nil => rfl
  | cons pc rest ih => simp [insSetAll, ih, List.length_set]

theorem swapAt_length (chars : List Char) (i : Nat) :
    (swapAt chars i).length = chars.length := by
  simp [swapAt, List.length_set]

theorem foldl_swapAt_length (edit : List Nat) (chars : List Char) :
    (edit.foldl swapAt chars).length = chars.length := by
  induction edit generalizing chars with
  | nil => rfl
  | cons i rest ih => simp [List.foldl_cons, ih, swapAt_length]

theorem mem_editApply {σ : Type} {edits : List σ} {gen : List σ → List String}
    {mx : Nat} {u : String} :
    u ∈ editApply edits gen mx ↔ ∃ i < mx, ∃ c ∈ combinations (i + 1) edits, u ∈ gen c := by
  simp [editApply, List.mem_flatMap, List.mem_range]

theorem length_of_mem_subGenerate {s : String} {edit : List (Nat × List Char)} {u : String}
    (h : u ∈ subGenerate s edit) : u.length = s.length := by
  simp only [subGenerate, List.mem_map] at h
  obtain ⟨ed, -, rfl⟩ := h
  show (setAll s.toList _).length = s.length
  rw [setAll_length]
  rfl

theorem length_of_mem_traGenerate {s : String} {edit : List Nat} {u : String}
    (h : u ∈ traGenerate s edit) : u.length = s.length := by
  simp only [traGenerate, List.mem_singleton] at h
  subst h
  show (edit.foldl swapAt s.toList).length = s.length
  rw [foldl_swapAt_length]
  rfl

theorem length_of_mem_insGenerate {s : String} {edit : List (Nat × List Char)} {u : String}
    (h : u ∈ insGenerate s edit) : u.length ≤ 15 := by
  simp only [insGenerate, List.mem_filterMap] at h
  obtain ⟨ed, -, h⟩ := h
  split at h
  · cases h; assumption
  · cases h

theorem length_of_mem_delGenerate {s : String} {edit : List Nat} {u : String}
    (h : u ∈ delGenerate s edit) : u.length ≤ s.length := by
  simp only [delGenerate] at h
  split at h
  · cases h
  · simp only [List.mem_singleton] at h
    subst h
    show (List.filterMap _ s.toList.enum).length ≤ s.length
    calc (List.filterMap _ s.toList.enum).length ≤ s.toList.enum.length :=
          List.length_filterMap_le _ _
      _ = s.length := by rw [List.enum_length]; rfl

theorem length_of_mem_preApply {cases : List String} {s u : String}
    (h : u ∈ preApply cases s) : u.length ≤ 15 := by
  simp only [preApply, List.mem_filterMap] at h
  obtain ⟨p, -, h⟩ := h
  split at h
  · cases h; assumption
  · cases h

theorem length_of_mem_sufApply {cases : List String} {s u : String}
    (h : u ∈ sufApply cases s) : u.length ≤ 15 := by
  simp only [sufApply, List.mem_filterMap] at h
  obtain ⟨p, -, h⟩ := h
  split at h
  · cases h; assumption
  · cases h

/-- Every output of any operation applied to a string of length ≤ 15 again has
length ≤ 15. -/
theorem apply_length_le (op : Op) (s : String) (hs : s.length ≤ 15) :
    ∀ u ∈ op.apply s, u.length ≤ 15 := by
  intro u hu
  cases op with
  | sub cases mx =>
    simp only [Op.apply, mem_editApply] at hu
    obtain ⟨i, -, c, -, hu⟩ := hu
    rw [length_of_mem_subGenerate hu]; exact hs
  | tra cases mx =>
    simp only [Op.apply, mem_editApply] at hu
    obtain ⟨i, -, c, -, hu⟩ := hu
    rw [length_of_mem_traGenerate hu]; exact hs
  | ins cases mx =>
    simp only [Op.apply, mem_editApply] at hu
    obtain ⟨i, -, c, -, hu⟩ := hu
    exact length_of_mem_insGenerate hu
  | del cases mx =>
    simp only [Op.apply, mem_editApply] at hu
    obtain ⟨i, -, c, -, hu⟩ := hu
    exact le_trans (length_of_mem_delGenerate hu) hs
  | pre cases => exact length_of_mem_preApply hu
  | suf cases => exact length_of_mem_sufApply hu

/-! ### The candidate pool: staging, deduplication, membership -/

theorem mem_addCandidates_of_mem_temp {users : List String} {v : String} :
    ∀ (news temp : List String), v ∈ temp → v ∈ addCandidates users temp news := by
  intro news
  induction news with
  | nil => intro temp h; exact h
  | cons n rest ih =>
    intro temp h
    have e : addCandidates users temp (n :: rest)
        = addCandidates users (if n ∈ users ++ temp then temp else temp ++ [n]) rest := rfl
    rw [e]
    apply ih
    split
    · exact h
    · exact List.mem_append_left _ h

theorem mem_of_mem_addCandidates {users : List String} {v : String} :
    ∀ (news temp : List String), v ∈ addCandidates users temp news → v ∈ temp ∨ v ∈ news := by
  intro news
  induction news with
  | nil => intro temp h; exact Or.inl h
  | cons n rest ih =>
    intro temp h
    have e : addCandidates users temp (n :: rest)
        = addCandidates users (if n ∈ users ++ temp then temp else temp ++ [n]) rest := rfl
    rw [e] at h
    rcases ih _ h with h1 | h2
    · by_cases hm : n ∈ users ++ temp
      · rw [if_pos hm] at h1
        exact Or.inl h1
      · rw [if_neg hm] at h1
        rcases List.mem_append.mp h1 with ha | hb
        · exact Or.inl ha
        · exact Or.inr (List.mem_cons.mpr (Or.inl (List.mem_singleton.mp hb)))
    · exact Or.inr (List.mem_cons_of_mem _ h2)

theorem addCandidates_covers {users : List String} {v : String} :
    ∀ (news temp : List String), v ∈ news → v ∈ users ∨ v ∈ addCandidates users temp news := by
  intro news
  induction news with
  | nil => intro temp h; cases h
  | cons n rest ih =>
    intro temp h
    have e : addCandidates users temp (n :: rest)
        = addCandidates users (if n ∈ users ++ temp then temp else temp ++ [n]) rest := rfl
    rw [e]
    rcases List.mem_cons.mp h with rfl | hr
    · by_cases hm : v ∈ users ++ temp
      · rcases List.mem_append.mp hm with h1 | h2
        · exact Or.inl h1
        · right
          rw [if_pos hm]
          exact mem_addCandidates_of_mem_temp rest temp h2
      · right
        rw [if_neg hm]
        exact mem_addCandidates_of_mem_temp rest _ (by simp)
    · exact ih _ hr

theorem nodup_addCandidates {users : List String} :
    ∀ (news temp : List String), (users ++ temp).Nodup →
      (users ++ addCandidates users temp news).Nodup := by
  intro news
  induction news with
  | nil => intro temp h; exact h
  | cons n rest ih =>
    intro temp h
    have e : addCandidates users temp (n :: rest)
        = addCandidates users (if n ∈ users ++ temp then temp else temp ++ [n]) rest := rfl
    rw [e]
    by_cases hm : n ∈ users ++ temp
    · rw [if_pos hm]
      exact ih temp h
    · rw [if_neg hm]
      apply ih
      rw [← List.append_assoc]
      refine List.nodup_append.mpr ⟨h, List.nodup_singleton n, ?_⟩
      intro a ha hb
      rw [List.mem_singleton.mp hb] at ha
      exact hm ha

theorem mem_stageFold_of_mem_temp {op : Op} {users : List String} {v : String} :
    ∀ (l temp : List String), v ∈ temp →
      v ∈ l.foldl (fun t user => addCandidates users t (op.apply user)) temp := by
  intro l
  induction l with
  | nil => intro temp h; exact h
  | cons w rest ih =>
    intro temp h
    exact ih _ (mem_addCandidates_of_mem_temp (op.apply w) temp h)

theorem mem_of_mem_stageFold {op : Op} {users : List String} :
    ∀ (l temp : List String) (v : String),
      v ∈ l.foldl (fun t user => addCandidates users t (op.apply user)) temp →
      v ∈ temp ∨ ∃ u ∈ l, v ∈ op.apply u := by
  intro l
  induction l with
  | nil => intro temp v h; exact Or.inl h
  | cons w rest ih =>
    intro temp v h
    rcases ih _ v h with h1 | h2
    · rcases mem_of_mem_addCandidates (op.apply w) temp h1 with ha | hb
      · exact Or.inl ha
      · exact Or.inr ⟨w, List.mem_cons_self w rest, hb⟩
    · obtain ⟨u, hu, hv⟩ := h2
      exact Or.inr ⟨u, List.mem_cons_of_mem _ hu, hv⟩

theorem mem_stageFold_of_apply {op : Op} {users : List String} :
    ∀ (l temp : List String) (u v : String), u ∈ l → v ∈ op.apply u →
      v ∈ users ∨ v ∈ l.foldl (fun t user => addCandidates users t (op.apply user)) temp := by
  intro l
  induction l with
  | nil => intro temp u v h _; cases h
  | cons w rest ih =>
    intro temp u v hu hv
    rcases List.mem_cons.mp hu with rfl | hr
    · rcases addCandidates_covers (op.apply u) temp hv with h1 | h2
      · exact Or.inl h1
      · exact Or.inr (mem_stageFold_of_mem_temp rest _ h2)
    · exact ih _ u v hr hv

theorem nodup_stageFold {op : Op} {users : List String} :
    ∀ (l temp : List String), (users ++ temp).Nodup →
      (users ++ l.foldl (fun t user => addCandidates users t (op.apply user)) temp).Nodup := by
  intro l
  induction l with
  | nil => intro temp h; exact h
  | cons w rest ih =>
    intro temp h
    exact ih _ (nodup_addCandidates (op.apply w) temp h)

theorem nodup_opPass (op : Op) (users : List String) (h : users.Nodup) :
    (opPass op users).Nodup :=
  nodup_stageFold users [] (by simpa using h)

theorem mem_opPass_of_mem (op : Op) {users : List String} {u : String} (h : u ∈ users) :
    u ∈ opPass op users :=
  List.mem_append_left _ h

theorem mem_opPass_of_apply {op : Op} {users : List String} {u v : String} (hu : u ∈ users)
    (hv : v ∈ op.apply u) : v ∈ opPass op users := by
  rcases mem_stageFold_of_apply users [] u v hu hv with h | h
  · exact List.mem_append_left _ h
  · exact List.mem_append_right _ h

theorem length_le_opPass (op : Op) (users : List String)
    (h : ∀ u ∈ users, u.length ≤ 15) : ∀ v ∈ opPass op users, v.length ≤ 15 := by
  intro v hv
  rcases List.mem_append.mp hv with h1 | h2
  · exact h v h1
  · rcases mem_of_mem_stageFold users [] v h2 with h3 | ⟨u, hu, hv1⟩
    · cases h3
    · exact apply_length_le op u (h u hu) v hv1

theorem nodup_foldl_opPass :
    ∀ (profile : List Op) (users : List String), users.Nodup →
      (profile.foldl (fun us op => opPass op us) users).Nodup := by
  intro profile
  induction profile with
  | nil => intro users h; exact h
  | cons op rest ih => intro users h; exact ih _ (nodup_opPass op users h)

theorem length_le_foldl_opPass :
    ∀ (profile : List Op) (users : List String), (∀ u ∈ users, u.length ≤ 15) →
      ∀ v ∈ profile.foldl (fun us op => opPass op us) users, v.length ≤ 15 := by
  intro profile
  induction profile with
  | nil => intro users h; exact h
  | cons op rest ih => intro users h; exact ih _ (length_le_opPass op users h)

theorem nodup_pool (target : String) (profile : List Op) : (pool target profile).Nodup :=
  nodup_foldl_opPass profile [target] (List.nodup_singleton target)

theorem pool_append_single (target : String) (pre : List Op) (op : Op) :
    pool target (pre ++ [op]) = opPass op (pool target pre) := by
  simp [pool, List.foldl_append]

theorem mem_foldl_opPass_of_mem :
    ∀ (profile : List Op) (users : List String) (u : String), u ∈ users →
      u ∈ profile.foldl (fun us op => opPass op us) users := by
  intro profile
  induction profile with
  | nil => intro users u h; exact h
  | cons op rest ih => intro users u h; exact ih _ u (mem_opPass_of_mem op h)

theorem base_mem_pool (b : String) (P : List Op) : b ∈ pool b P :=
  mem_foldl_opPass_of_mem P [b] b (List.mem_singleton.mpr rfl)

/-! ### Claim theorems -/

/-- C1: for every valid base string `b` and every profile `P`,
`generate_users b P` does not contain `b` and contains no duplicates, and
after any prefix of the profile the candidate pool holds no repeated
string. -/
theorem generate_users_excludes_base_and_nodup (b : String) (P : List Op)
    (_hb : validBase b) :
    b ∉ generate_users b P ∧ (generate_users b P).Nodup ∧
      ∀ pre rest : List Op, P = pre ++ rest → (pool b pre).Nodup := by
  refine ⟨?_, ?_, ?_⟩
  · intro h
    have h1 := ((nodup_pool b P).mem_erase_iff).mp h
    exact h1.1 rfl
  · exact (nodup_pool b P).erase b
  · intro pre rest _
    exact nodup_pool b pre

/-- Witness for C1 at base `"root"` and profile
`[Substitution {o ↦ [0]} max 1, Suffix ["1"]]`. -/
theorem generate_users_excludes_base_and_nodup_witness :
    "root" ∉ generate_users "root" [Op.sub [('o', ['0'])] 1, Op.suf ["1"]] ∧
    (generate_users "root" [Op.sub [('o', ['0'])] 1, Op.suf ["1"]]).Nodup ∧
    (pool "root" [Op.sub [('o', ['0'])] 1]).Nodup := by
  have h := generate_users_excludes_base_and_nodup "root"
    [Op.sub [('o', ['0'])] 1, Op.suf ["1"]] (by unfold validBase; decide)
  exact ⟨h.1, h.2.1, h.2.2 [Op.sub [('o', ['0'])] 1] [Op.suf ["1"]] rfl⟩

/-- C2: for a valid base (length ≤ 15), every generated candidate has length
at most 15; moreover Insertion, the prepend operation and the append operation
drop any individual result exceeding 15 characters. -/
theorem generated_length_le_fifteen (b : String) (P : List Op) (hb : validBase b) :
    (∀ u ∈ generate_users b P, u.length ≤ 15) ∧
    (∀ (s : String) (edit : List (Nat × List Char)) (u : String),
        u ∈ insGenerate s edit → u.length ≤ 15) ∧
    (∀ (cases : List String) (s u : String), u ∈ preApply cases s → u.length ≤ 15) ∧
    (∀ (cases : List String) (s u : String), u ∈ sufApply cases s → u.length ≤ 15) := by
  refine ⟨?_, fun s edit u h => length_of_mem_insGenerate h,
    fun cases s u h => length_of_mem_preApply h,
    fun cases s u h => length_of_mem_sufApply h⟩
  intro u hu
  have hm : u ∈ pool b P := List.mem_of_mem_erase hu
  refine length_le_foldl_opPass P [b] ?_ u hm
  intro x hx
  rw [List.mem_singleton.mp hx]
  exact hb.2.1

/-- Witness for C2 at base `"root"`. -/
theorem generated_length_le_fifteen_witness : ("r0ot1" : String).length ≤ 15 :=
  (generated_length_le_fifteen "root" [Op.sub [('o', ['0'])] 1, Op.suf ["1"]]
    (by unfold validBase; decide)).1 "r0ot1" (by decide)

/-- C3: the profile engine composes cumulatively: an operation is applied to
every string in the accumulated pool (which contains the base), not only to
the previous operation's fresh output; in particular
`[Substitution {o ↦ [0]} max 1, Suffix ["1"]]` on `"root"` yields `"r0ot1"`
and `"ro0t1"`. -/
theorem cumulative_composition :
    (∀ (b : String) (pre : List Op) (op : Op) (u v : String),
        u ∈ pool b pre → v ∈ op.apply u → v ∈ pool b (pre ++ [op])) ∧
    (∀ (b : String) (P : List Op), b ∈ pool b P) ∧
    "r0ot1" ∈ generate_users "root" [Op.sub [('o', ['0'])] 1, Op.suf ["1"]] ∧
    "ro0t1" ∈ generate_users "root" [Op.sub [('o', ['0'])] 1, Op.suf ["1"]] := by
  refine ⟨?_, base_mem_pool, by decide, by decide⟩
  intro b pre op u v hu hv
  rw [pool_append_single]
  exact mem_opPass_of_apply hu hv

/-- Witness for C3: the suffix operation applied to the pool member `"root"`
contributes `"root1"` to the next pool. -/
theorem cumulative_composition_witness : "root1" ∈ pool "root" ([] ++ [Op.suf ["1"]]) :=
  cumulative_composition.1 "root" [] (Op.suf ["1"]) "root" "root1" (by decide) (by decide)

/-! ### Degenerate inputs -/

theorem combinations_eq_nil {α : Type} :
    ∀ (l : List α) (n : Nat), l.length < n → combinations n l = [] := by
  intro l
  induction l with
  | nil =>
    intro n h
    cases n with
    | zero => omega
    | succ m => rfl
  | cons x xs ih =>
    intro n h
    cases n with
    | zero => omega
    | succ m =>
      simp only [List.length_cons] at h
      simp only [combinations]
      rw [ih m (by omega), ih (m + 1) (by omega)]
      rfl

theorem editApply_nil {σ : Type} (gen : List σ → List String) (mx : Nat) :
    editApply ([] : List σ) gen mx = [] := by
  unfold editApply
  refine List.flatMap_eq_nil_iff.mpr ?_
  intro i _
  rw [combinations_eq_nil [] (i + 1) (by simp)]
  rfl

theorem editApply_drop {σ : Type} (edits : List σ) (gen : List σ → List String)
    (m : Nat) (h : edits.length ≤ m) :
    editApply edits gen (m + 1) = editApply edits gen m := by
  unfold editApply
  rw [List.range_succ, List.flatMap_append]
  simp [combinations_eq_nil edits (m + 1) (by omega)]

theorem editApply_min {σ : Type} (edits : List σ) (gen : List σ → List String) :
    ∀ mx : Nat, editApply edits gen mx = editApply edits gen (min mx edits.length) := by
  intro mx
  induction mx with
  | zero => simp
  | succ m ih =>
    by_cases h : m + 1 ≤ edits.length
    · rw [Nat.min_eq_left h]
    · have h2 : edits.length ≤ m := by omega
      rw [editApply_drop _ _ _ h2, ih, Nat.min_eq_right h2, Nat.min_eq_right (by omega)]

theorem subEdits_nil_cases (s : String) : subEdits [] s = [] :=
  List.filterMap_eq_nil_iff.mpr (fun _ _ => rfl)

theorem insEdits_nil_cases (s : String) : insEdits [] s = [] :=
  List.filterMap_eq_nil_iff.mpr (fun _ _ => rfl)

theorem traEdits_nil_cases (s : String) : traEdits [] s = [] :=
  List.filter_eq_nil_iff.mpr (fun _ _ => by simp)

theorem delEdits_nil_cases (s : String) : delEdits [] s = [] :=
  List.filterMap_eq_nil_iff.mpr (fun _ _ => by simp)

/-- C9: `apply` is total and degenerate inputs yield empty output, never an
error: combination sizes exceeding the number of available sites contribute
nothing (so an oversized `max` is harmless), and an empty case table yields an
empty result for every operation kind. -/
theorem apply_total_degenerate :
    (∀ (α : Type) (n : Nat) (l : List α), l.length < n → combinations n l = []) ∧
    (∀ (σ : Type) (edits : List σ) (gen : List σ → List String) (mx : Nat),
        editApply edits gen mx = editApply edits gen (min mx edits.length)) ∧
    (∀ (mx : Nat) (s : String), Op.apply (Op.sub [] mx) s = []) ∧
    (∀ (mx : Nat) (s : String), Op.apply (Op.tra [] mx) s = []) ∧
    (∀ (mx : Nat) (s : String), Op.apply (Op.ins [] mx) s = []) ∧
    (∀ (mx : Nat) (s : String), Op.apply (Op.del [] mx) s = []) ∧
    (∀ s : String, Op.apply (Op.pre []) s = []) ∧
    (∀ s : String, Op.apply (Op.suf []) s = []) := by
  refine ⟨fun α n l h => combinations_eq_nil l n h,
    fun σ edits gen mx => editApply_min edits gen mx, ?_, ?_, ?_, ?_, ?_, ?_⟩
  · intro mx s
    show editApply (subEdits [] s) (subGenerate s) mx = []
    rw [subEdits_nil_cases, editApply_nil]
  · intro mx s
    show editApply (traEdits [] s) (traGenerate s) mx = []
    rw [traEdits_nil_cases, editApply_nil]
  · intro mx s
    show editApply (insEdits [] s) (insGenerate s) mx = []
    rw [insEdits_nil_cases, editApply_nil]
  · intro mx s
    show editApply (delEdits [] s) (delGenerate s) mx = []
    rw [delEdits_nil_cases, editApply_nil]
  · intro s
    rfl
  · intro s
    rfl

/-- Witness for C9: a combination size exceeding the site count contributes
nothing. -/
theorem apply_total_degenerate_witness : combinations 3 ([1, 2] : List Nat) = [] :=
  apply_total_degenerate.1 Nat 3 [1, 2] (by decide)

/-- C10: every output of Substitution and of Transposition has exactly the
length of the input string, so neither kind can produce an over-length
candidate from a base of length at most 15. -/
theorem sub_tra_preserve_length :
    (∀ (cases : List (Char × List Char)) (mx : Nat) (s u : String),
        u ∈ Op.apply (Op.sub cases mx) s → u.length = s.length) ∧
    (∀ (cases : List (List Char)) (mx : Nat) (s u : String),
        u ∈ Op.apply (Op.tra cases mx) s → u.length = s.length) ∧
    (∀ (cases : List (Char × List Char)) (mx : Nat) (s u : String),
        s.length ≤ 15 → u ∈ Op.apply (Op.sub cases mx) s → u.length ≤ 15) ∧
    (∀ (cases : List (List Char)) (mx : Nat) (s u : String),
        s.length ≤ 15 → u ∈ Op.apply (Op.tra cases mx) s → u.length ≤ 15) := by
  have hsub : ∀ (cases : List (Char × List Char)) (mx : Nat) (s u : String),
      u ∈ Op.apply (Op.sub cases mx) s → u.length = s.length := by
    intro cases mx s u hu
    simp only [Op.apply, mem_editApply] at hu
    obtain ⟨i, -, c, -, hu⟩ := hu
    exact length_of_mem_subGenerate hu
  have htra : ∀ (cases : List (List Char)) (mx : Nat) (s u : String),
      u ∈ Op.apply (Op.tra cases mx) s → u.length = s.length := by
    intro cases mx s u hu
    simp only [Op.apply, mem_editApply] at hu
    obtain ⟨i, -, c, -, hu⟩ := hu
    exact length_of_mem_traGenerate hu
  exact ⟨hsub, htra,
    fun cases mx s u hs hu => le_of_eq_of_le (hsub cases mx s u hu) hs,
    fun cases mx s u hs hu => le_of_eq_of_le (htra cases mx s u hu) hs⟩

/-- Witness for C10 at Substitution on `"root"` and Transposition on
`"ab"`. -/
theorem sub_tra_preserve_length_witness :
    ("r0ot" : String).length = ("root" : String).length ∧
    ("ba" : String).length = ("ab" : String).length :=
  ⟨sub_tra_preserve_length.1 [('o', ['0'])] 1 "root" "r0ot" (by decide),
   sub_tra_preserve_length.2.1 [['a', 'b']] 1 "ab" "ba" (by decide)⟩

/-- C4 counterexample: Insertion with `{o ↦ [0]}` and `max = 1` on `"root"`
does not produce `"r0oot"` (the code appends the chosen character after the
matched one), and does produce `"roo0t"`, which the claimed set omits. -/
theorem insertion_root_claimed_set_false :
    "r0oot" ∉ Op.apply (Op.ins [('o', ['0'])] 1) "root" ∧
    "roo0t" ∈ Op.apply (Op.ins [('o', ['0'])] 1) "root" := by
  decide

/-- C4 amended: Insertion with `{o ↦ [0]}` and `max = 1` on `"root"` produces
exactly the candidates `["ro0ot", "roo0t"]` — the chosen character is appended
immediately after the matched character — and each output is one character
longer than the input. -/
theorem insertion_root_amended :
    Op.apply (Op.ins [('o', ['0'])] 1) "root" = ["ro0ot", "roo0t"] ∧
    ∀ u ∈ Op.apply (Op.ins [('o', ['0'])] 1) "root",
      u.length = ("root" : String).length + 1 := by
  constructor
  · decide
  · decide

/-- Witness for C4's amended claim at output `"ro0ot"`. -/
theorem insertion_root_amended_witness :
    ("ro0ot" : String).length = ("root" : String).length + 1 :=
  insertion_root_amended.2 "ro0ot" (by decide)

/-! ### Deletion -/

theorem fst_lt_of_mem_enum {α : Type} {l : List α} {ic : Nat × α} (h : ic ∈ l.enum) :
    ic.1 < l.length := by
  have h1 : ic.1 ∈ l.enum.map Prod.fst := List.mem_map_of_mem Prod.fst h
  rw [List.enum_map_fst] at h1
  exact List.mem_range.mp h1

theorem delGenerate_eq_nil_iff (s : String) (edit : List Nat) :
    delGenerate s edit = [] ↔ ∀ j < s.length, j ∈ edit := by
  have h1 : (s.toList.enum.filterMap
      (fun ic => if ic.1 ∈ edit then none else some ic.2) = []) ↔
      ∀ j < s.length, j ∈ edit := by
    rw [List.filterMap_eq_nil_iff]
    constructor
    · intro h j hj
      have hjl : j ∈ s.toList.enum.map Prod.fst := by
        rw [List.enum_map_fst]
        exact List.mem_range.mpr hj
      obtain ⟨ic, hic, hfst⟩ := List.mem_map.mp hjl
      have h2 := h ic hic
      by_contra hmem
      rw [hfst] at h2
      rw [if_neg hmem] at h2
      cases h2
    · intro h ic hic
      rw [if_pos (h ic.1 (fst_lt_of_mem_enum hic))]
  by_cases hc : s.toList.enum.filterMap
      (fun ic => if ic.1 ∈ edit then none else some ic.2) = []
  · have hd : delGenerate s edit = [] := by
      unfold delGenerate
      rw [if_pos hc]
    rw [hd]
    simp only [true_iff]
    exact h1.mp hc
  · have hd : delGenerate s edit = [String.mk (s.toList.enum.filterMap
        (fun ic => if ic.1 ∈ edit then none else some ic.2))] := by
      unfold delGenerate
      rw [if_neg hc]
    rw [hd]
    constructor
    · intro h
      cases h
    · intro h
      exact absurd (h1.mpr h) hc

/-- C8: Deletion removes all of the combination's positions simultaneously,
and a combination whose removal would leave the empty string (one that covers
every position) contributes no output; on base `"oo"` with delete-set
`{o}`, both `max = 1` and `max = 2` generate exactly `["o"]`. -/
theorem deletion_simultaneous_drops_empty :
    (∀ (s : String) (edit : List Nat),
        delGenerate s edit = [] ↔ ∀ j < s.length, j ∈ edit) ∧
    (∀ (s : String) (edit : List Nat) (u : String), u ∈ delGenerate s edit →
        u = String.mk (s.toList.enum.filterMap
          (fun ic => if ic.1 ∈ edit then none else some ic.2))) ∧
    generate_users "oo" [Op.del ['o'] 1] = ["o"] ∧
    generate_users "oo" [Op.del ['o'] 2] = ["o"] := by
  refine ⟨delGenerate_eq_nil_iff, ?_, by decide, by decide⟩
  intro s edit u h
  unfold delGenerate at h
  simp only [] at h
  by_cases hc : List.filterMap (fun ic => if ic.1 ∈ edit then none else some ic.2)
      s.toList.enum = []
  · rw [if_pos hc] at h
    cases h
  · rw [if_neg hc] at h
    exact List.mem_singleton.mp h

/-- Witness for C8: the two-site combination on `"oo"` deletes everything and
is dropped; the one-site combination keeps the other character. -/
theorem deletion_simultaneous_drops_empty_witness :
    delGenerate "oo" [0, 1] = [] ∧
    "o" = String.mk ((String.toList "oo").enum.filterMap
      (fun ic => if ic.1 ∈ [0] then none else some ic.2)) :=
  ⟨(deletion_simultaneous_drops_empty.1 "oo" [0, 1]).mpr (by decide),
   deletion_simultaneous_drops_empty.2.1 "oo" [0] "o" (by decide)⟩

/-! ### Transposition: sequential shared-buffer swaps -/

theorem swapAt_swapAt_adjacent (l : List Char) (i : Nat) (h : i + 2 < l.length) :
    swapAt (swapAt l i) (i + 1)
      = ((l.set i (l.getD (i + 1) ' ')).set (i + 1) (l.getD (i + 2) ' ')).set (i + 2)
          (l.getD i ' ') := by
  have hC : (swapAt l i).getD (i + 2) ' ' = l.getD (i + 2) ' ' := by
    unfold swapAt
    rw [List.getD_eq_getElem?_getD, List.getElem?_set_ne (by omega),
      List.getElem?_set_ne (by omega), ← List.getD_eq_getElem?_getD]
  have hA : (swapAt l i).getD (i + 1) ' ' = l.getD i ' ' := by
    unfold swapAt
    rw [List.getD_eq_getElem?_getD,
      List.getElem?_set_self (by rw [List.length_set]; omega)]
    rfl
  have e : swapAt (swapAt l i) (i + 1)
      = ((swapAt l i).set (i + 1) ((swapAt l i).getD (i + 2) ' ')).set (i + 2)
          ((swapAt l i).getD (i + 1) ' ') := rfl
  rw [e, hC, hA]
  show ((((l.set i (l.getD (i + 1) ' ')).set (i + 1) (l.getD i ' ')).set (i + 1)
      (l.getD (i + 2) ' '))).set (i + 2) (l.getD i ' ') = _
  rw [List.set_set]

/-- C6: within one combination, Transposition applies its swaps sequentially
to one shared buffer, in combination order — for adjacent sites `i`, `i + 1`
selected together, the second swap observes the first one's effect, and the
outcome differs from the one obtained by independent, non-interacting
swaps. -/
theorem transposition_sequential_swaps :
    (∀ (s : String) (edit : List Nat),
        traGenerate s edit = [String.mk (edit.foldl swapAt s.toList)]) ∧
    (∀ (s : String) (i : Nat), i + 2 < s.length →
        s.toList.getD i ' ' ≠ s.toList.getD (i + 1) ' ' →
        ((traGenerate s [i, i + 1]).getD 0 "").toList.getD (i + 2) ' '
            = s.toList.getD i ' ' ∧
        (indepSwaps s.toList [i, i + 1]).getD (i + 2) ' '
            = s.toList.getD (i + 1) ' ' ∧
        traGenerate s [i, i + 1] ≠ [String.mk (indepSwaps s.toList [i, i + 1])]) := by
  refine ⟨fun s edit => rfl, ?_⟩
  intro s i hi hne
  have hl : i + 2 < s.toList.length := hi
  have h1 : ((traGenerate s [i, i + 1]).getD 0 "").toList.getD (i + 2) ' '
      = s.toList.getD i ' ' := by
    show (swapAt (swapAt s.toList i) (i + 1)).getD (i + 2) ' ' = s.toList.getD i ' '
    rw [swapAt_swapAt_adjacent s.toList i hl, List.getD_eq_getElem?_getD,
      List.getElem?_set_self (by simp only [List.length_set]; omega)]
    rfl
  have h2 : (indepSwaps s.toList [i, i + 1]).getD (i + 2) ' '
      = s.toList.getD (i + 1) ' ' := by
    show ((((s.toList.set i (s.toList.getD (i + 1) ' ')).set (i + 1)
        (s.toList.getD i ' ')).set (i + 1) (s.toList.getD (i + 2) ' ')).set (i + 2)
        (s.toList.getD (i + 1) ' ')).getD (i + 2) ' ' = s.toList.getD (i + 1) ' '
    rw [List.getD_eq_getElem?_getD,
      List.getElem?_set_self (by simp only [List.length_set]; omega)]
    rfl
  refine ⟨h1, h2, ?_⟩
  intro heq
  have he : ((traGenerate s [i, i + 1]).getD 0 "").toList.getD (i + 2) ' '
      = (indepSwaps s.toList [i, i + 1]).getD (i + 2) ' ' := by
    rw [heq]
    rfl
  rw [h1, h2] at he
  exact hne he

/-- Witness for C6 at base `"abc"` with adjacent sites `0` and `1`. -/
theorem transposition_sequential_swaps_witness :
    ((traGenerate "abc" [0, 1]).getD 0 "").toList.getD 2 ' '
        = ("abc" : String).toList.getD 0 ' ' ∧
    (indepSwaps ("abc" : String).toList [0, 1]).getD 2 ' '
        = ("abc" : String).toList.getD 1 ' ' ∧
    traGenerate "abc" [0, 1] ≠ [String.mk (indepSwaps ("abc" : String).toList [0, 1])] :=
  transposition_sequential_swaps.2 "abc" 0 (by decide) (by decide)

/-! ### Substitution and Insertion: the buffer loops, pointwise -/

theorem length_of_mem_product {α : Type} :
    ∀ (ls : List (List α)) (ed : List α), ed ∈ product ls → ed.length = ls.length := by
  intro ls
  induction ls with
  | nil =>
    intro ed h
    simp only [product, List.mem_singleton] at h
    subst h
    rfl
  | cons l rest ih =>
    intro ed h
    simp only [product, List.mem_flatMap, List.mem_map] at h
    obtain ⟨x, hx, t, ht, rfl⟩ := h
    simp only [List.length_cons, ih t ht]

theorem setAll_getElem? :
    ∀ (asn : List (Nat × Char)) (chars : List Char) (j : Nat),
      (asn.map Prod.fst).Nodup → (∀ p ∈ asn.map Prod.fst, p < chars.length) →
      (setAll chars asn)[j]? = (match List.lookup j asn with
        | some c => some c
        | none => chars[j]?) := by
  intro asn
  induction asn with
  | nil =>
    intro chars j _ _
    rfl
  | cons pc rest ih =>
    obtain ⟨p, c⟩ := pc
    intro chars j hnd hlt
    simp only [List.map_cons, List.nodup_cons] at hnd
    have hp : p < chars.length := hlt p (List.mem_cons_self _ _)
    have e : setAll chars ((p, c) :: rest) = setAll (chars.set p c) rest := rfl
    rw [e, ih (chars.set p c) j hnd.2 (by
      intro q hq
      rw [List.length_set]
      exact hlt q (List.mem_cons_of_mem _ hq))]
    by_cases hj : j = p
    · subst hj
      rw [lookup_eq_none_of_not_mem rest j hnd.1]
      have hl2 : List.lookup j ((j, c) :: rest) = some c := by
        simp [List.lookup]
      rw [hl2]
      exact List.getElem?_set_self hp
    · have hb : (j == p) = false := by simp [hj]
      have hl2 : List.lookup j ((p, c) :: rest) = List.lookup j rest := by
        simp only [List.lookup, hb]
      rw [hl2]
      cases hcl : List.lookup j rest with
      | some c2 => rfl
      | none => exact List.getElem?_set_ne (fun hh => hj hh.symm)

theorem insSetAll_getElem? :
    ∀ (asn : List (Nat × Char)) (chars : List String) (j : Nat),
      (asn.map Prod.fst).Nodup → (∀ p ∈ asn.map Prod.fst, p < chars.length) →
      (insSetAll chars asn)[j]? = (match List.lookup j asn with
        | some c => chars[j]?.map (fun a => a ++ c.toString)
        | none => chars[j]?) := by
  intro asn
  induction asn with
  | nil =>
    intro chars j _ _
    rfl
  | cons pc rest ih =>
    obtain ⟨p, c⟩ := pc
    intro chars j hnd hlt
    simp only [List.map_cons, List.nodup_cons] at hnd
    have hp : p < chars.length := hlt p (List.mem_cons_self _ _)
    have e : insSetAll chars ((p, c) :: rest)
        = insSetAll (chars.set p (chars.getD p "" ++ c.toString)) rest := rfl
    rw [e, ih (chars.set p (chars.getD p "" ++ c.toString)) j hnd.2 (by
      intro q hq
      rw [List.length_set]
      exact hlt q (List.mem_cons_of_mem _ hq))]
    by_cases hj : j = p
    · subst hj
      rw [lookup_eq_none_of_not_mem rest j hnd.1]
      have hl2 : List.lookup j ((j, c) :: rest) = some c := by
        simp [List.lookup]
      rw [hl2]
      have hgd : chars.getD j "" = chars[j] := by
        rw [List.getD_eq_getElem?_getD, List.getElem?_eq_getElem hp]
        rfl
      rw [List.getElem?_set_self hp, hgd, List.getElem?_eq_getElem hp]
      rfl
    · have hb : (j == p) = false := by simp [hj]
      have hl2 : List.lookup j ((p, c) :: rest) = List.lookup j rest := by
        simp only [List.lookup, hb]
      rw [hl2]
      cases hcl : List.lookup j rest with
      | some c2 => rw [List.getElem?_set_ne (fun hh => hj hh.symm)]
      | none => exact List.getElem?_set_ne (fun hh => hj hh.symm)

theorem subGenerate_eq_spec (s : String) (edit : List (Nat × List Char))
    (hnd : (edit.map Prod.fst).Nodup) (hlt : ∀ p ∈ edit.map Prod.fst, p < s.length) :
    subGenerate s edit = (product (edit.map Prod.snd)).map
      (fun ed => String.mk (specSubst s.toList (List.zip (edit.map Prod.fst) ed))) := by
  unfold subGenerate
  apply List.map_congr_left
  intro ed hed
  have hlen : ed.length = edit.length := by
    rw [length_of_mem_product _ ed hed, List.length_map]
  have hkeys : (List.zip (edit.map Prod.fst) ed).map Prod.fst = edit.map Prod.fst := by
    apply List.map_fst_zip
    rw [List.length_map, hlen]
  congr 1
  apply List.ext_getElem?
  intro j
  rw [setAll_getElem? _ _ j (by rw [hkeys]; exact hnd)
      (by rw [hkeys]; intro p hp; exact hlt p hp)]
  unfold specSubst
  rw [List.getElem?_map, List.getElem?_enum]
  by_cases hj : j < s.toList.length
  · rw [List.getElem?_eq_getElem hj]
    simp only [Option.map_some']
    cases hcl : List.lookup j (List.zip (edit.map Prod.fst) ed) with
    | some c => simp only [hcl]
    | none => simp only [hcl]
  · have hn : s.toList[j]? = none := List.getElem?_eq_none (by omega)
    rw [hn]
    rw [lookup_eq_none_of_not_mem _ j (by
      rw [hkeys]
      intro hmem
      exact hj (hlt j hmem))]
    rfl

theorem insGenerate_eq_spec (s : String) (edit : List (Nat × List Char))
    (hnd : (edit.map Prod.fst).Nodup) (hlt : ∀ p ∈ edit.map Prod.fst, p < s.length) :
    insGenerate s edit = (product (edit.map Prod.snd)).filterMap
      (fun ed =>
        let t := specInsert s.toList (List.zip (edit.map Prod.fst) ed)
        if t.length ≤ 15 then some t else none) := by
  unfold insGenerate
  apply List.filterMap_congr
  intro ed hed
  have hlen : ed.length = edit.length := by
    rw [length_of_mem_product _ ed hed, List.length_map]
  have hkeys : (List.zip (edit.map Prod.fst) ed).map Prod.fst = edit.map Prod.fst := by
    apply List.map_fst_zip
    rw [List.length_map, hlen]
  have key : String.join (insSetAll (s.toList.map (fun c => String.mk [c]))
        (List.zip (edit.map Prod.fst) ed))
      = specInsert s.toList (List.zip (edit.map Prod.fst) ed) := by
    unfold specInsert
    congr 1
    apply List.ext_getElem?
    intro j
    rw [insSetAll_getElem? _ _ j (by rw [hkeys]; exact hnd)
        (by rw [hkeys]; intro p hp; rw [List.length_map]; exact hlt p hp)]
    rw [List.getElem?_map, List.getElem?_map, List.getElem?_enum]
    by_cases hj : j < s.toList.length
    · rw [List.getElem?_eq_getElem hj]
      simp only [Option.map_some']
      cases hcl : List.lookup j (List.zip (edit.map Prod.fst) ed) with
      | some c => simp only [hcl]; rfl
      | none => simp only [hcl]
    · have hn : s.toList[j]? = none := List.getElem?_eq_none (by omega)
      rw [hn]
      rw [lookup_eq_none_of_not_mem _ j (by
        rw [hkeys]
        intro hmem
        exact hj (hlt j hmem))]
      rfl
  show (if (String.join (insSetAll (s.toList.map (fun c => String.mk [c]))
        (List.zip (edit.map Prod.fst) ed))).length ≤ 15
      then some (String.join (insSetAll (s.toList.map (fun c => String.mk [c]))
        (List.zip (edit.map Prod.fst) ed))) else none)
    = (if (specInsert s.toList (List.zip (edit.map Prod.fst) ed)).length ≤ 15
      then some (specInsert s.toList (List.zip (edit.map Prod.fst) ed)) else none)
  rw [key]

/-- C5: Insertion enumerates the Cartesian product of the sites' insertion
sets, and each tuple yields the string obtained by appending (not replacing)
the chosen character immediately after the existing character at each chosen
position, with any result longer than 15 characters filtered out — for any
combination of distinct in-range sites. -/
theorem insertion_product_append_filter (s : String) (edit : List (Nat × List Char))
    (hnd : (edit.map Prod.fst).Nodup) (hlt : ∀ p ∈ edit.map Prod.fst, p < s.length) :
    insGenerate s edit = (product (edit.map Prod.snd)).filterMap
      (fun ed =>
        let t := specInsert s.toList (List.zip (edit.map Prod.fst) ed)
        if t.length ≤ 15 then some t else none) :=
  insGenerate_eq_spec s edit hnd hlt

/-- Witness for C5 at `"root"` with the two insertion sites of
`{o ↦ [0]}`. -/
theorem insertion_product_append_filter_witness :
    insGenerate "root" [(1, ['0']), (2, ['0'])]
      = (product ([(1, ['0']), (2, ['0'])].map Prod.snd)).filterMap
          (fun ed =>
            let t := specInsert ("root" : String).toList
              (List.zip (([(1, ['0']), (2, ['0'])] : List (Nat × List Char)).map Prod.fst) ed)
            if t.length ≤ 15 then some t else none) :=
  insertion_product_append_filter "root" [(1, ['0']), (2, ['0'])] (by decide) (by decide)

/-- C7: each tuple of the Cartesian product of the sites' replacement sets
yields one output with exactly the combination's positions carrying the
chosen replacements and every other position unchanged; Substitution with
`{o ↦ [0]}` on `"root"` yields exactly `["r0ot", "ro0t"]` at `max = 1` and
additionally `"r00t"` at `max = 2`. -/
theorem substitution_frame_and_examples :
    (∀ (s : String) (edit : List (Nat × List Char)),
        (edit.map Prod.fst).Nodup → (∀ p ∈ edit.map Prod.fst, p < s.length) →
        subGenerate s edit = (product (edit.map Prod.snd)).map
          (fun ed => String.mk (specSubst s.toList (List.zip (edit.map Prod.fst) ed)))) ∧
    Op.apply (Op.sub [('o', ['0'])] 1) "root" = ["r0ot", "ro0t"] ∧
    Op.apply (Op.sub [('o', ['0'])] 2) "root" = ["r0ot", "ro0t", "r00t"] :=
  ⟨subGenerate_eq_spec, by decide, by decide⟩

/-- Witness for C7 at `"root"` with the two substitution sites of
`{o ↦ [0]}`. -/
theorem substitution_frame_and_examples_witness :
    subGenerate "root" [(1, ['0']), (2, ['0'])]
      = (product ([(1, ['0']), (2, ['0'])].map Prod.snd)).map
          (fun ed => String.mk (specSubst ("root" : String).toList
            (List.zip (([(1, ['0']), (2, ['0'])] : List (Nat × List Char)).map Prod.fst) ed))) :=
  substitution_frame_and_examples.1 "root" [(1, ['0']), (2, ['0'])] (by decide) (by decide)

end Twister
